import Mathlib

/-!
Verification of the corvus background task execution engine
(`crates/corvus-core/src/task_manager.rs` and `crates/io/src/fs_ops.rs`)
against its natural-language specification.

The Rust code is shallowly embedded:
* paths (`PathBuf`) are lists of components (`List String`);
* `Uuid::new_v4()` fresh-identifier generation is modelled by a counter
  `nextId` on the manager state (the model of a "freshly generated unique
  identifier");
* the tokio mpsc Progress Channel is a FIFO list of `(id, event)` pairs;
* a spawned executor that has not yet reported is recorded by its task id in
  the `spawned` list;
* `f32` progress values carry no arithmetic in this code, they are modelled
  as rationals.
-/

namespace Corvus

/-- A filesystem path, as its list of components.  `PathBuf::file_name()`
returns `None` exactly when the path is empty (`""`, `"/"`) or ends in
`".."`; that is the `fileName` model below. -/
abbrev FsPath := List String

/-- `io::fs_ops::ProgressEvent`. -/
inductive ProgressEvent where
  | update (p : Rat)
  | completed
  | error (msg : String)
deriving DecidableEq, Repr

/-- `TaskKind` from `task_manager.rs`. -/
inductive TaskKind where
  | copy (src dest : FsPath)
  | move (src dest : FsPath)
  | delete (path : FsPath)
  | createFile (path : FsPath)
  | createDirectory (path : FsPath)
  | chmod (path : FsPath) (mode : Nat)
  | chown (path : FsPath) (owner : String)
  | unmount (path : FsPath)
  | archive (paths : List FsPath) (dest : FsPath) (format : String)
deriving DecidableEq, Repr

/-- `TaskStatus` from `task_manager.rs`; `inProgress` carries the progress
fraction. -/
inductive TaskStatus where
  | pending
  | inProgress (p : Rat)
  | completed
  | failed (reason : String)
deriving DecidableEq, Repr

/-- `Completed` and `Failed` are the terminal statuses. -/
def TaskStatus.isTerminal : TaskStatus → Bool
  | .completed => true
  | .failed _ => true
  | _ => false

/-- `Completed` and `Error` are the terminal events; `Update` is not. -/
def ProgressEvent.isTerminal : ProgressEvent → Bool
  | .completed => true
  | .error _ => true
  | .update _ => false

/-- `Task` from `task_manager.rs` (identifiers as naturals). -/
structure Task where
  id : Nat
  kind : TaskKind
  status : TaskStatus
  description : String
deriving DecidableEq, Repr

/-- `Task::new`: a fresh task starts `Pending`.  The fresh identifier is
supplied by the manager's counter (the model of `Uuid::new_v4()`). -/
def Task.new (id : Nat) (kind : TaskKind) (description : String) : Task :=
  { id := id, kind := kind, status := TaskStatus.pending, description := description }

/-- The state of `TaskManager` together with its surrounding concurrency:
the registry `tasks`, the ids of spawned executors that have not yet
reported (`spawned`), the Progress Channel contents (`channel`), and the
fresh-identifier counter. -/
structure TaskManager where
  tasks : List Task
  spawned : List Nat
  channel : List (Nat × ProgressEvent)
  nextId : Nat
deriving DecidableEq, Repr

/-- `TaskManager::new`: empty registry, empty channel. -/
def TaskManager.new : TaskManager :=
  { tasks := [], spawned := [], channel := [], nextId := 0 }

/-- `TaskManager::add_task`: push `Task::new(kind, description)` onto the
registry.  The state effect; the Rust method's return value is `()`
(see `addTaskRet`). -/
def addTask (s : TaskManager) (kind : TaskKind) (description : String) : TaskManager :=
  { s with
    tasks := s.tasks ++ [Task.new s.nextId kind description]
    nextId := s.nextId + 1 }

/-- `TaskManager::add_task` with its return value made explicit: the Rust
signature is `pub fn add_task(&self, kind: TaskKind, description: String)`,
so the caller receives the unit value, not the new task's identifier. -/
def addTaskRet (s : TaskManager) (kind : TaskKind) (description : String) :
    TaskManager × Unit :=
  (addTask s kind description, ())

/-- `TaskManager::get_tasks`: a snapshot of the registry. -/
def getTasks (s : TaskManager) : List Task :=
  s.tasks

/-- The per-task effect of the `process_pending_tasks` scan: a `Pending`
task is set to `InProgress(0.0)`, any other task is untouched. -/
def markPending (t : Task) : Task :=
  if t.status = TaskStatus.pending then { t with status := TaskStatus.inProgress 0 } else t

/-- `TaskManager::process_pending_tasks`: every `Pending` task is set to
`InProgress(0.0)` and its executor is spawned; tasks in any other status are
left alone and nothing is spawned for them. -/
def processPendingTasks (s : TaskManager) : TaskManager :=
  { s with
    tasks := s.tasks.map markPending
    spawned := s.spawned ++
      (s.tasks.filter fun t => decide (t.status = TaskStatus.pending)).map (·.id) }

/-- The status a received event sets on the matching task
(the `match event` arms of `wait_for_event`). -/
def eventStatus : ProgressEvent → TaskStatus
  | .completed => TaskStatus.completed
  | .error e => TaskStatus.failed e
  | .update p => TaskStatus.inProgress p

/-- The body of `wait_for_event` after receiving `(id, event)`:
find the first task with that id, update its status, and report whether the
applied event was `Completed`.  A missing id changes nothing and reports
`false`. -/
def applyEvent : List Task → Nat → ProgressEvent → List Task × Bool
  | [], _, _ => ([], false)
  | t :: ts, i, ev =>
    if t.id = i then
      ({ t with status := eventStatus ev } :: ts, ev = ProgressEvent.completed)
    else
      let r := applyEvent ts i ev
      (t :: r.1, r.2)

/-- `TaskManager::wait_for_event`: pop the next event from the Progress
Channel and apply it; `true` exactly when a matching task was set to
`Completed`.  An empty channel (closed receiver) yields `false`. -/
def waitForEvent (s : TaskManager) : TaskManager × Bool :=
  match s.channel with
  | [] => (s, false)
  | (i, ev) :: rest =>
    let r := applyEvent s.tasks i ev
    ({ s with tasks := r.1, channel := rest }, r.2)

/-- The status of the task with identifier `i`, if any. -/
def statusOf (s : TaskManager) (i : Nat) : Option TaskStatus :=
  (s.tasks.find? fun t => decide (t.id = i)).map (·.status)

/-! ## The archive builder (`crates/io/src/fs_ops.rs`)

The filesystem visible to the builder is a finite tree.  An input path is
paired with the node it resolves to (`none` for a nonexistent path), which
models `is_dir`, `read_dir` and `read`.  `to_str()` conversions are modelled
as always succeeding (names are `String`s); the `file_name().unwrap()`
panics are modelled explicitly. -/

/-- A filesystem node: a file with raw bytes, or a directory listing its
children in `read_dir` order. -/
inductive FsNode where
  | file (content : List Nat)
  | dir (entries : List (String × FsNode))
deriving Repr

/-- `PathBuf::file_name()`: the last component, or `None` when there is
none (empty path, `"/"`, or a trailing `".."`). -/
def fileName (p : FsPath) : Option String :=
  match p.getLast? with
  | none => none
  | some c => if c = ".." then none else some c

/-- `Path::strip_prefix`: drop `base` from the front of `p`, failing when
`base` is not a prefix. -/
def stripBase (base p : FsPath) : Option FsPath :=
  if base.isPrefixOf p then some (p.drop base.length) else none

/-- A zip entry as written by the builder: an explicit directory entry or a
file entry with its bytes, both named by a slash-joined relative path. -/
inductive ZipEntry where
  | dirE (name : String)
  | fileE (name : String) (content : List Nat)
deriving DecidableEq, Repr

/-- The outcome of one archive-builder run: the entries written, an error
returned as `Err`, or a panic (an `unwrap` failure that unwinds without
returning). -/
inductive RunResult (α : Type) where
  | ok (val : α)
  | err (msg : String)
  | panicked
deriving DecidableEq, Repr

/-- The `read_dir` loop of `add_dir_to_zip`, walking the entries of the
directory at `dirPath`: each entry is named by its path relative to `base`
(via `strip_prefix`); a sub-directory gets an explicit directory entry and
is recursed into with the same `base`. -/
def zipWalk (base dirPath : FsPath) : List (String × FsNode) → Except String (List ZipEntry)
  | [] => Except.ok []
  | (n, child) :: rest =>
    match stripBase base (dirPath ++ [n]) with
    | none => Except.error "Failed to create relative path"
    | some rel =>
      match child with
      | FsNode.file content =>
        match zipWalk base dirPath rest with
        | Except.error e => Except.error e
        | Except.ok tail =>
          Except.ok (ZipEntry.fileE (String.intercalate "/" rel) content :: tail)
      | FsNode.dir es =>
        match zipWalk base (dirPath ++ [n]) es with
        | Except.error e => Except.error e
        | Except.ok sub =>
          match zipWalk base dirPath rest with
          | Except.error e => Except.error e
          | Except.ok tail =>
            Except.ok (ZipEntry.dirE (String.intercalate "/" rel) :: (sub ++ tail))
termination_by l => sizeOf l
decreasing_by
  all_goals simp_wf
  all_goals omega

/-- `add_dir_to_zip(zip, base_path, dir_path)`: `read_dir` on a non-directory
fails; on a directory it runs the walk above. -/
def addDirToZip (base dirPath : FsPath) : FsNode → Except String (List ZipEntry)
  | FsNode.file _ => Except.error "Failed to read directory"
  | FsNode.dir es => zipWalk base dirPath es

/-- The loop of `create_zip_archive` over the input paths (destination
creation assumed to succeed; claims do not involve a failing destination).
A directory input is flattened with itself as the `strip_prefix` base; a
non-directory input takes `file_name().unwrap()` — a panic when the path
has no file name — and then reads the file's bytes. -/
def zipGo : List (FsPath × Option FsNode) → List ZipEntry → RunResult (List ZipEntry)
  | [], acc => RunResult.ok acc
  | (p, some (FsNode.dir es)) :: rest, acc =>
    match addDirToZip p p (FsNode.dir es) with
    | Except.error e => RunResult.err e
    | Except.ok entries => zipGo rest (acc ++ entries)
  | (p, some (FsNode.file content)) :: rest, acc =>
    match fileName p with
    | none => RunResult.panicked
    | some fname => zipGo rest (acc ++ [ZipEntry.fileE fname content])
  | (p, none) :: _, _ =>
    match fileName p with
    | none => RunResult.panicked
    | some _ => RunResult.err "No such file or directory (os error 2)"

/-- `create_zip_archive(paths, dest)`. -/
def createZipArchive (inputs : List (FsPath × Option FsNode)) : RunResult (List ZipEntry) :=
  zipGo inputs []

/-- A tar entry; names are kept as component lists because tar entries are
named by paths (the full input path for file inputs). -/
inductive TarEntry where
  | dirE (name : FsPath)
  | fileE (name : FsPath) (content : List Nat)
deriving DecidableEq, Repr

/-- The entry name of a tar entry. -/
def tarEntryName : TarEntry → FsPath
  | TarEntry.dirE n => n
  | TarEntry.fileE n _ => n

/-- The recursive walk of `tar::Builder::append_dir_all`: every entry under
the walked directory is named `pre` followed by its path inside it. -/
def tarWalk (pre : FsPath) : List (String × FsNode) → List TarEntry
  | [] => []
  | (n, FsNode.file content) :: rest =>
    TarEntry.fileE (pre ++ [n]) content :: tarWalk pre rest
  | (n, FsNode.dir es) :: rest =>
    TarEntry.dirE (pre ++ [n]) :: (tarWalk (pre ++ [n]) es ++ tarWalk pre rest)
termination_by l => sizeOf l
decreasing_by
  all_goals simp_wf
  all_goals omega

/-- `append_dir_all(dest_name, path)`: the directory itself and its full
contents, all under the single top-level name `destName`. -/
def appendDirAll (destName : String) : FsNode → List TarEntry
  | FsNode.file content => [TarEntry.fileE [destName] content]
  | FsNode.dir es => TarEntry.dirE [destName] :: tarWalk [destName] es

/-- The loop of `create_tar_archive` over the input paths: a directory input
is appended via `append_dir_all(path.file_name().unwrap(), path)` — a panic
when the directory path has no file name — and a file input is appended
under its own full path. -/
def tarGo : List (FsPath × Option FsNode) → List TarEntry → RunResult (List TarEntry)
  | [], acc => RunResult.ok acc
  | (p, some (FsNode.dir es)) :: rest, acc =>
    match fileName p with
    | none => RunResult.panicked
    | some f => tarGo rest (acc ++ appendDirAll f (FsNode.dir es))
  | (p, some (FsNode.file content)) :: rest, acc =>
    tarGo rest (acc ++ [TarEntry.fileE p content])
  | (_, none) :: _, _ => RunResult.err "No such file or directory (os error 2)"

/-- `create_tar_archive(paths, dest, compressed)`: the `compressed` flag only
wraps the byte stream in a gzip encoder; both source branches perform the
identical sequence of appends, so the entry list does not depend on it. -/
def createTarArchive (inputs : List (FsPath × Option FsNode)) (compressed : Bool) :
    RunResult (List TarEntry) :=
  match compressed with
  | true => tarGo inputs []
  | false => tarGo inputs []

/-- The observable outcome of one executor run: the events it sent on the
Progress Channel, or a panic that aborts the unit of work without sending. -/
inductive ExecOutcome where
  | emitted (events : List ProgressEvent)
  | panicked
deriving DecidableEq, Repr

/-- `archive_task`: select the builder by the literal format tag, then send
exactly one terminal event — unless the builder panicked, in which case the
unit of work dies with no event sent. -/
def archiveTask (inputs : List (FsPath × Option FsNode)) (format : String) : ExecOutcome :=
  if format = "zip" then
    match createZipArchive inputs with
    | RunResult.ok _ => ExecOutcome.emitted [ProgressEvent.completed]
    | RunResult.err e => ExecOutcome.emitted [ProgressEvent.error e]
    | RunResult.panicked => ExecOutcome.panicked
  else if format = "tar" then
    match createTarArchive inputs false with
    | RunResult.ok _ => ExecOutcome.emitted [ProgressEvent.completed]
    | RunResult.err e => ExecOutcome.emitted [ProgressEvent.error e]
    | RunResult.panicked => ExecOutcome.panicked
  else if format = "tar.gz" then
    match createTarArchive inputs true with
    | RunResult.ok _ => ExecOutcome.emitted [ProgressEvent.completed]
    | RunResult.err e => ExecOutcome.emitted [ProgressEvent.error e]
    | RunResult.panicked => ExecOutcome.panicked
  else
    ExecOutcome.emitted [ProgressEvent.error ("Unsupported archive format: " ++ format)]

/-- `copy_file_task`, parametrised by the outcome of the `fs::copy` call:
one `Completed` on success, one `Error` on failure. -/
def copyFileTask (res : Except String Unit) : List ProgressEvent :=
  match res with
  | Except.ok _ => [ProgressEvent.completed]
  | Except.error e => [ProgressEvent.error e]

/-! ## Lemmas about `applyEvent` -/

theorem applyEvent_snd_eq (ts : List Task) (i : Nat) (ev : ProgressEvent) :
    (applyEvent ts i ev).2 = ((ts.any fun t => decide (t.id = i)) && decide (ev = ProgressEvent.completed)) := by
  induction ts with
  | nil => simp [applyEvent]
  | cons t ts ih =>
    by_cases h : t.id = i
    · simp [applyEvent, h]
    · simp [applyEvent, h, ih]

theorem applyEvent_of_not_mem (ts : List Task) (i : Nat) (ev : ProgressEvent)
    (h : ∀ t ∈ ts, t.id ≠ i) : applyEvent ts i ev = (ts, false) := by
  induction ts with
  | nil => simp [applyEvent]
  | cons t ts ih =>
    have ht : t.id ≠ i := h t (List.mem_cons_self t ts)
    have ih' := ih fun u hu => h u (List.mem_cons_of_mem t hu)
    simp [applyEvent, ht, ih']

/-- C1: for every event consumed by `wait_for_event` that applies to a task
in the registry, the call returns `true` if and only if that event was
`Completed`; it returns `false` for `Update` and `Error` events. -/
theorem waitForEvent_true_iff_completed (s : TaskManager) (i : Nat) (ev : ProgressEvent)
    (rest : List (Nat × ProgressEvent)) (hch : s.channel = (i, ev) :: rest)
    (hmem : ∃ t ∈ s.tasks, t.id = i) :
    ((waitForEvent s).2 = true ↔ ev = ProgressEvent.completed) := by
  obtain ⟨t, ht, hid⟩ := hmem
  have hany : (s.tasks.any fun u => decide (u.id = i)) = true := by
    exact List.any_eq_true.mpr ⟨t, ht, by simp [hid]⟩
  simp [waitForEvent, hch, applyEvent_snd_eq, hany]

theorem waitForEvent_true_iff_completed_witness :
    ((waitForEvent
        { tasks := [{ id := 0, kind := TaskKind.delete [], status := TaskStatus.inProgress 0,
                      description := "d" }],
          spawned := [], channel := [(0, ProgressEvent.completed)], nextId := 1 }).2 = true
      ↔ ProgressEvent.completed = ProgressEvent.completed) :=
  waitForEvent_true_iff_completed _ 0 ProgressEvent.completed [] rfl
    ⟨{ id := 0, kind := TaskKind.delete [], status := TaskStatus.inProgress 0,
       description := "d" }, by simp, rfl⟩

/-- C10: when the received event's task identifier matches no task in the
registry, the statuses of all tasks are left unchanged and the call returns
`false`, even for a `Completed` event. -/
theorem waitForEvent_unknown_id (s : TaskManager) (i : Nat) (ev : ProgressEvent)
    (rest : List (Nat × ProgressEvent)) (hch : s.channel = (i, ev) :: rest)
    (hnone : ∀ t ∈ s.tasks, t.id ≠ i) :
    (waitForEvent s).1.tasks = s.tasks ∧ (waitForEvent s).2 = false := by
  simp [waitForEvent, hch, applyEvent_of_not_mem s.tasks i ev hnone]

theorem waitForEvent_unknown_id_witness :
    ((waitForEvent
        { tasks := [{ id := 5, kind := TaskKind.delete [], status := TaskStatus.inProgress 0,
                      description := "d" }],
          spawned := [], channel := [(0, ProgressEvent.completed)], nextId := 6 }).1.tasks
      = [{ id := 5, kind := TaskKind.delete [], status := TaskStatus.inProgress 0,
           description := "d" }]
    ∧ (waitForEvent
        { tasks := [{ id := 5, kind := TaskKind.delete [], status := TaskStatus.inProgress 0,
                      description := "d" }],
          spawned := [], channel := [(0, ProgressEvent.completed)], nextId := 6 }).2 = false) :=
  waitForEvent_unknown_id _ 0 ProgressEvent.completed [] rfl (by decide)

/-- C5: for any format tag other than `"zip"`, `"tar"`, `"tar.gz"`, the
archive executor emits a single `Error` event with the descriptive
unsupported-format message.  The outcome is the same for every input list
(and every filesystem): no builder runs and nothing is constructed — there
is no fallback to a default format and no crash. -/
theorem archiveTask_unsupported_format (format : String)
    (h1 : format ≠ "zip") (h2 : format ≠ "tar") (h3 : format ≠ "tar.gz") :
    ∀ inputs : List (FsPath × Option FsNode),
      archiveTask inputs format
        = ExecOutcome.emitted [ProgressEvent.error ("Unsupported archive format: " ++ format)] := by
  intro inputs
  simp [archiveTask, h1, h2, h3]

theorem archiveTask_unsupported_format_witness :
    archiveTask [(["src"], some (FsNode.dir [("a.txt", FsNode.file [7])]))] "rar"
      = ExecOutcome.emitted [ProgressEvent.error "Unsupported archive format: rar"] :=
  archiveTask_unsupported_format "rar" (by decide) (by decide) (by decide)
    [(["src"], some (FsNode.dir [("a.txt", FsNode.file [7])]))]

/-- C4 (code bug): the zip builder panics instead of converting the error
into a `Failed` status: on an input path that has no file name and is not a
directory (here the empty path, which does not exist on disk),
`path.file_name().unwrap()` in `create_zip_archive` unwraps `None` and the
executor unwinds without producing any terminal status. -/
theorem createZipArchive_no_file_name_panics :
    createZipArchive [([], none)] = RunResult.panicked := rfl

/-- C8 (code bug): the archive executor violates the one-terminal-event
contract: run on format `"zip"` with the empty, nonexistent input path it
panics inside the builder and its unit of work ends with zero events sent
on the Progress Channel instead of exactly one. -/
theorem archiveTask_zero_events_on_panic :
    archiveTask [([], none)] "zip" = ExecOutcome.panicked := rfl

/-- C3 (counterexample): `add_task` does not return the new task's
identifier.  Its Rust return type is `()`, so there is no reading of the
returned value — no function from the returned value — that yields the
freshly issued identifier (`s.nextId` is the id given to the new task),
because the identifier differs across states while the returned value is
always the same unit value. -/
theorem addTaskRet_does_not_return_id :
    ¬ ∃ f : Unit → Nat,
        ∀ (s : TaskManager) (kind : TaskKind) (description : String),
          f (addTaskRet s kind description).2 = s.nextId := by
  rintro ⟨f, hf⟩
  have h0 := hf TaskManager.new (TaskKind.delete []) ""
  have h1 := hf (addTask TaskManager.new (TaskKind.delete []) "") (TaskKind.delete []) ""
  simp [addTaskRet, TaskManager.new, addTask] at h0 h1
  omega

/-- C3 (as amended): `add_task(kind, description)` appends a new task with
status `Pending`, the requested kind and description, and a freshly
generated identifier distinct from every previously issued identifier; it
never fails, returns no value, and the new task is immediately present in a
subsequent `get_tasks` snapshot. -/
theorem addTask_appends_fresh_pending (s : TaskManager) (kind : TaskKind)
    (description : String) (hb : ∀ t ∈ s.tasks, t.id < s.nextId) :
    ∃ newT : Task,
      (addTask s kind description).tasks = s.tasks ++ [newT]
      ∧ newT.status = TaskStatus.pending
      ∧ newT.kind = kind
      ∧ newT.description = description
      ∧ (∀ t ∈ s.tasks, t.id ≠ newT.id)
      ∧ newT ∈ getTasks (addTask s kind description) := by
  refine ⟨Task.new s.nextId kind description, rfl, rfl, rfl, rfl, ?_, ?_⟩
  · intro t ht
    have := hb t ht
    simp [Task.new]
    omega
  · simp [getTasks, addTask]

theorem addTask_appends_fresh_pending_witness :
    ∃ newT : Task,
      (addTask
        { tasks := [{ id := 0, kind := TaskKind.delete [], status := TaskStatus.completed,
                      description := "old" }],
          spawned := [], channel := [], nextId := 1 } (TaskKind.createFile ["f"]) "create f").tasks
        = [{ id := 0, kind := TaskKind.delete [], status := TaskStatus.completed,
             description := "old" }] ++ [newT]
      ∧ newT.status = TaskStatus.pending
      ∧ newT.kind = TaskKind.createFile ["f"]
      ∧ newT.description = "create f"
      ∧ (∀ t ∈ ([{ id := 0, kind := TaskKind.delete [], status := TaskStatus.completed,
                   description := "old" }] : List Task), t.id ≠ newT.id)
      ∧ newT ∈ getTasks (addTask
          { tasks := [{ id := 0, kind := TaskKind.delete [], status := TaskStatus.completed,
                        description := "old" }],
            spawned := [], channel := [], nextId := 1 } (TaskKind.createFile ["f"]) "create f") :=
  addTask_appends_fresh_pending
    { tasks := [{ id := 0, kind := TaskKind.delete [], status := TaskStatus.completed,
                  description := "old" }],
      spawned := [], channel := [], nextId := 1 }
    (TaskKind.createFile ["f"]) "create f" (by decide)

/-! ## Zip flattening and tar prefixing -/

/-- The zip entries produced for the children of a directory, written with
names relative to that directory: each file child becomes one file entry,
each sub-directory becomes an explicit directory entry followed by its own
contents, and every name is the path of the child inside the walked
directory (joined with `/`), with no mention of the directory's own path. -/
def entriesUnder (pre : FsPath) : List (String × FsNode) → List ZipEntry
  | [] => []
  | (n, FsNode.file content) :: rest =>
    ZipEntry.fileE (String.intercalate "/" (pre ++ [n])) content :: entriesUnder pre rest
  | (n, FsNode.dir es) :: rest =>
    ZipEntry.dirE (String.intercalate "/" (pre ++ [n]))
      :: (entriesUnder (pre ++ [n]) es ++ entriesUnder pre rest)
termination_by l => sizeOf l
decreasing_by
  all_goals simp_wf
  all_goals omega

theorem stripBase_append (base x : FsPath) : stripBase base (base ++ x) = some x := by
  simp [stripBase]

theorem zipWalk_strip (N : Nat) : ∀ es : List (String × FsNode), sizeOf es ≤ N →
    ∀ base rel : FsPath, zipWalk base (base ++ rel) es = Except.ok (entriesUnder rel es) := by
  induction N with
  | zero =>
    intro es h
    cases es with
    | nil => simp at h
    | cons e rest => simp at h
  | succ N ih =>
    intro es h base rel
    match es with
    | [] => simp [zipWalk, entriesUnder]
    | (n, FsNode.file content) :: rest =>
      have hrest : sizeOf rest ≤ N := by simp at h; omega
      have hs : stripBase base (base ++ (rel ++ [n])) = some (rel ++ [n]) :=
        stripBase_append base (rel ++ [n])
      simp only [zipWalk, List.append_assoc, hs, ih rest hrest base rel, entriesUnder]
    | (n, FsNode.dir es2) :: rest =>
      have hrest : sizeOf rest ≤ N := by simp at h; omega
      have hes2 : sizeOf es2 ≤ N := by simp at h; omega
      have hs : stripBase base (base ++ (rel ++ [n])) = some (rel ++ [n]) :=
        stripBase_append base (rel ++ [n])
      have hsub := ih es2 hes2 base (rel ++ [n])
      simp only [zipWalk, List.append_assoc, hs, hsub, ih rest hrest base rel, entriesUnder]

/-- C6: a directory given as a zip input is archived relative to itself:
`add_dir_to_zip(zip, path, path)` produces exactly the entries of the
directory's children named by their paths inside that directory (one file
entry per file, an explicit directory entry per sub-directory, and the
directory's own path `p` appears in no entry name — the right-hand side does
not mention `p`); and a file given as an input path yields one entry named
by its file name and carrying the file's raw bytes. -/
theorem zip_flattens_dir_and_names_file_entries (p q : FsPath)
    (es : List (String × FsNode)) (n : String) (content : List Nat)
    (hq : fileName q = some n) :
    addDirToZip p p (FsNode.dir es) = Except.ok (entriesUnder [] es)
    ∧ createZipArchive [(q, some (FsNode.file content))]
        = RunResult.ok [ZipEntry.fileE n content] := by
  constructor
  · have := zipWalk_strip (sizeOf es) es (Nat.le_refl _) p []
    simpa [addDirToZip] using this
  · simp [createZipArchive, zipGo, hq]

theorem zip_flattens_dir_and_names_file_entries_witness :
    addDirToZip ["src"] ["src"]
        (FsNode.dir [("file1.txt", FsNode.file [1]),
                     ("sub", FsNode.dir [("file2.txt", FsNode.file [2])])])
      = Except.ok [ZipEntry.fileE "file1.txt" [1], ZipEntry.dirE "sub",
                   ZipEntry.fileE "sub/file2.txt" [2]]
    ∧ createZipArchive [(["d", "a.txt"], some (FsNode.file [7]))]
      = RunResult.ok [ZipEntry.fileE "a.txt" [7]] := by
  have h := zip_flattens_dir_and_names_file_entries ["src"] ["d", "a.txt"]
    [("file1.txt", FsNode.file [1]), ("sub", FsNode.dir [("file2.txt", FsNode.file [2])])]
    "a.txt" [7] rfl
  refine ⟨?_, h.2⟩
  rw [h.1]
  simp [entriesUnder]
  decide

theorem tarWalk_names_prefixed (pre : FsPath) (es : List (String × FsNode)) :
    ∀ e ∈ tarWalk pre es, ∃ r : FsPath, tarEntryName e = pre ++ r := by
  induction pre, es using tarWalk.induct with
  | case1 pre => simp [tarWalk]
  | case2 pre n content rest ih =>
    intro e he
    rw [tarWalk] at he
    rcases List.mem_cons.mp he with h | h
    · exact ⟨[n], by simp [h, tarEntryName]⟩
    · exact ih e h
  | case3 pre n es2 rest ih1 ih2 =>
    intro e he
    rw [tarWalk] at he
    rcases List.mem_cons.mp he with h | h
    · exact ⟨[n], by simp [h, tarEntryName]⟩
    · rcases List.mem_append.mp h with h2 | h2
      · obtain ⟨r, hr⟩ := ih1 e h2
        exact ⟨n :: r, by simp [hr]⟩
      · exact ih2 e h2

/-- C7: a directory given as a tar (or tar.gz) input is archived under its
own name: the archive holds the directory itself and its full contents
recursively, and the name of every one of those entries starts with the
directory's file name `f` — unlike the zip builder, which strips the
directory prefix. -/
theorem tar_keeps_dir_name_as_top_entry (p : FsPath) (es : List (String × FsNode))
    (f : String) (compressed : Bool) (hp : fileName p = some f) :
    createTarArchive [(p, some (FsNode.dir es))] compressed
        = RunResult.ok (TarEntry.dirE [f] :: tarWalk [f] es)
    ∧ ∀ e ∈ TarEntry.dirE [f] :: tarWalk [f] es, ∃ r : FsPath, tarEntryName e = f :: r := by
  constructor
  · cases compressed <;> simp [createTarArchive, tarGo, hp, appendDirAll]
  · intro e he
    rcases List.mem_cons.mp he with h | h
    · exact ⟨[], by simp [h, tarEntryName]⟩
    · obtain ⟨r, hr⟩ := tarWalk_names_prefixed [f] es e h
      exact ⟨r, by simpa using hr⟩

theorem tar_keeps_dir_name_as_top_entry_witness :
    (createTarArchive [(["src"],
        some (FsNode.dir [("file1.txt", FsNode.file [1]),
                          ("sub", FsNode.dir [("file2.txt", FsNode.file [2])])]))] false
        = RunResult.ok (TarEntry.dirE ["src"]
            :: tarWalk ["src"] [("file1.txt", FsNode.file [1]),
                                ("sub", FsNode.dir [("file2.txt", FsNode.file [2])])]))
    ∧ ∀ e ∈ TarEntry.dirE ["src"]
            :: tarWalk ["src"] [("file1.txt", FsNode.file [1]),
                                ("sub", FsNode.dir [("file2.txt", FsNode.file [2])])],
        ∃ r : FsPath, tarEntryName e = "src" :: r :=
  tar_keeps_dir_name_as_top_entry ["src"]
    [("file1.txt", FsNode.file [1]), ("sub", FsNode.dir [("file2.txt", FsNode.file [2])])]
    "src" false rfl

/-! ## `process_pending_tasks` dispatches each task at most once -/

theorem markPending_markPending (t : Task) : markPending (markPending t) = markPending t := by
  by_cases h : t.status = TaskStatus.pending <;> simp [markPending, h]

theorem markPending_id (t : Task) : (markPending t).id = t.id := by
  by_cases h : t.status = TaskStatus.pending <;> simp [markPending, h]

theorem markPending_not_pending (t : Task) :
    (markPending t).status ≠ TaskStatus.pending := by
  by_cases h : t.status = TaskStatus.pending <;> simp [markPending, h]

theorem markPending_of_not_pending (t : Task) (h : t.status ≠ TaskStatus.pending) :
    markPending t = t := by
  simp [markPending, h]

theorem map_markPending_idem (ts : List Task) :
    (ts.map markPending).map markPending = ts.map markPending := by
  induction ts with
  | nil => rfl
  | cons t ts ih => simp only [List.map_cons, markPending_markPending, ih]

theorem filter_pending_map_markPending (ts : List Task) :
    ((ts.map markPending).filter fun t => decide (t.status = TaskStatus.pending)) = [] := by
  refine List.filter_eq_nil_iff.mpr ?_
  intro a ha
  obtain ⟨t, _, rfl⟩ := List.mem_map.mp ha
  simpa using markPending_not_pending t

theorem map_id_map_markPending (ts : List Task) :
    (ts.map markPending).map (·.id) = ts.map (·.id) := by
  induction ts with
  | nil => rfl
  | cons t ts ih => simp only [List.map_cons, markPending_id, ih]

theorem find?_id_map_markPending (ts : List Task) (i : Nat) :
    ((ts.map markPending).find? fun t => decide (t.id = i))
      = Option.map markPending (ts.find? fun t => decide (t.id = i)) := by
  induction ts with
  | nil => rfl
  | cons t ts ih =>
    by_cases h : t.id = i
    · rw [List.map_cons, List.find?_cons_of_pos _ (by simp [markPending_id, h]),
        List.find?_cons_of_pos _ (by simp [h])]
      rfl
    · rw [List.map_cons, List.find?_cons_of_neg _ (by simp [markPending_id, h]),
        List.find?_cons_of_neg _ (by simp [h]), ih]

theorem find?_id_of_nodup (ts : List Task) (t : Task)
    (hnodup : (ts.map (·.id)).Nodup) (ht : t ∈ ts) :
    (ts.find? fun u => decide (u.id = t.id)) = some t := by
  induction ts with
  | nil => cases ht
  | cons a ts ih =>
    rw [List.map_cons, List.nodup_cons] at hnodup
    rcases List.mem_cons.mp ht with rfl | hmem
    · exact List.find?_cons_of_pos _ (by simp)
    · have hne : a.id ≠ t.id := by
        intro he
        exact hnodup.1 (he ▸ List.mem_map_of_mem (·.id) hmem)
      rw [List.find?_cons_of_neg _ (by simp [hne])]
      exact ih hnodup.2 hmem

/-- C2: with no new tasks added in between, a second
`process_pending_tasks` call is a no-op (each task is dispatched at most
once across the two calls); every task `Pending` at the first call is set
to `InProgress(0.0)` and spawned exactly once, and a task that is already
`InProgress` or terminal is never spawned again. -/
theorem processPendingTasks_dispatches_once (s : TaskManager)
    (hnodup : (s.tasks.map (·.id)).Nodup) :
    processPendingTasks (processPendingTasks s) = processPendingTasks s
    ∧ (∀ t ∈ s.tasks, t.status = TaskStatus.pending →
        statusOf (processPendingTasks s) t.id = some (TaskStatus.inProgress 0)
        ∧ (processPendingTasks s).spawned.count t.id = s.spawned.count t.id + 1)
    ∧ (∀ t ∈ s.tasks, t.status ≠ TaskStatus.pending →
        (processPendingTasks s).spawned.count t.id = s.spawned.count t.id) := by
  have hsub : ((s.tasks.filter fun t => decide (t.status = TaskStatus.pending)).map (·.id)).Sublist
      (s.tasks.map (·.id)) := List.Sublist.map _ (List.filter_sublist s.tasks)
  refine ⟨?_, ?_, ?_⟩
  · cases s with
    | mk ts sp ch n =>
      simp [processPendingTasks, filter_pending_map_markPending]
      exact fun a _ => markPending_markPending a
  · intro t ht hp
    constructor
    · rw [statusOf]
      show ((s.tasks.map markPending).find? fun u => decide (u.id = t.id)).map (·.status)
        = some (TaskStatus.inProgress 0)
      rw [find?_id_map_markPending, find?_id_of_nodup s.tasks t hnodup ht]
      simp [markPending, hp]
    · show (s.spawned ++ (s.tasks.filter fun u => decide (u.status = TaskStatus.pending)).map (·.id)).count t.id
        = s.spawned.count t.id + 1
      rw [List.count_append]
      congr 1
      refine List.count_eq_one_of_mem (hsub.nodup hnodup) ?_
      refine List.mem_map_of_mem (fun u : Task => u.id) ?_
      rw [List.mem_filter]
      exact ⟨ht, decide_eq_true hp⟩
  · intro t ht hp
    show (s.spawned ++ (s.tasks.filter fun u => decide (u.status = TaskStatus.pending)).map (·.id)).count t.id
      = s.spawned.count t.id
    rw [List.count_append]
    have hzero : ((s.tasks.filter fun u => decide (u.status = TaskStatus.pending)).map (·.id)).count t.id = 0 := by
      refine List.count_eq_zero.mpr ?_
      intro hmem
      obtain ⟨u, hu, hui⟩ := List.mem_map.mp hmem
      have hu' := List.mem_filter.mp hu
      have : u = t := List.inj_on_of_nodup_map hnodup hu'.1 ht hui
      exact hp (by rw [← this]; exact of_decide_eq_true hu'.2)
    omega

theorem processPendingTasks_dispatches_once_witness :
    (processPendingTasks (processPendingTasks
        { tasks := [{ id := 0, kind := TaskKind.delete ["x"], status := TaskStatus.pending,
                      description := "del" },
                    { id := 1, kind := TaskKind.unmount ["m"], status := TaskStatus.completed,
                      description := "um" }],
          spawned := [], channel := [], nextId := 2 })
      = processPendingTasks
        { tasks := [{ id := 0, kind := TaskKind.delete ["x"], status := TaskStatus.pending,
                      description := "del" },
                    { id := 1, kind := TaskKind.unmount ["m"], status := TaskStatus.completed,
                      description := "um" }],
          spawned := [], channel := [], nextId := 2 })
    ∧ (statusOf (processPendingTasks
        { tasks := [{ id := 0, kind := TaskKind.delete ["x"], status := TaskStatus.pending,
                      description := "del" },
                    { id := 1, kind := TaskKind.unmount ["m"], status := TaskStatus.completed,
                      description := "um" }],
          spawned := [], channel := [], nextId := 2 }) 0 = some (TaskStatus.inProgress 0)
      ∧ (processPendingTasks
        { tasks := [{ id := 0, kind := TaskKind.delete ["x"], status := TaskStatus.pending,
                      description := "del" },
                    { id := 1, kind := TaskKind.unmount ["m"], status := TaskStatus.completed,
                      description := "um" }],
          spawned := [], channel := [], nextId := 2 }).spawned.count 0 = 1)
    ∧ (processPendingTasks
        { tasks := [{ id := 0, kind := TaskKind.delete ["x"], status := TaskStatus.pending,
                      description := "del" },
                    { id := 1, kind := TaskKind.unmount ["m"], status := TaskStatus.completed,
                      description := "um" }],
          spawned := [], channel := [], nextId := 2 }).spawned.count 1 = 0 := by
  have h := processPendingTasks_dispatches_once
    { tasks := [{ id := 0, kind := TaskKind.delete ["x"], status := TaskStatus.pending,
                  description := "del" },
                { id := 1, kind := TaskKind.unmount ["m"], status := TaskStatus.completed,
                  description := "um" }],
      spawned := [], channel := [], nextId := 2 } (by decide)
  obtain ⟨h1, h2, h3⟩ := h
  have h2' := h2 { id := 0, kind := TaskKind.delete ["x"], status := TaskStatus.pending,
                   description := "del" } (by simp) rfl
  have h3' := h3 { id := 1, kind := TaskKind.unmount ["m"], status := TaskStatus.completed,
                   description := "um" } (by simp) (by decide)
  exact ⟨h1, ⟨h2'.1, h2'.2⟩, h3'⟩

/-! ## The manager-plus-executors step relation

One system step is: a collaborator submits a task (`add_task`), the dispatch
scan runs (`process_pending_tasks`), a spawned executor finishes and sends
its single terminal event (`emit` — the executors in `fs_ops.rs` send
exactly one `Completed` or `Error` and never an `Update`), a spawned
executor aborts without reporting (`crash` — the archive builder's `unwrap`
panics), or the manager consumes one event (`wait_for_event`). -/

inductive Step : TaskManager → TaskManager → Prop where
  | add (s : TaskManager) (kind : TaskKind) (description : String) :
      Step s (addTask s kind description)
  | process (s : TaskManager) : Step s (processPendingTasks s)
  | emit (s : TaskManager) (i : Nat) (ev : ProgressEvent) (hi : i ∈ s.spawned)
      (hev : ev.isTerminal = true) :
      Step s { s with spawned := s.spawned.erase i, channel := s.channel ++ [(i, ev)] }
  | crash (s : TaskManager) (i : Nat) (hi : i ∈ s.spawned) :
      Step s { s with spawned := s.spawned.erase i }
  | wait (s : TaskManager) (h : s.channel ≠ []) : Step s (waitForEvent s).1

/-- The states reachable from `TaskManager::new`. -/
inductive Reachable : TaskManager → Prop where
  | base : Reachable TaskManager.new
  | step {s s' : TaskManager} : Reachable s → Step s s' → Reachable s'

/-- How many reports are still outstanding for task id `i`: executors
spawned for `i` that have not yet sent, plus events for `i` still queued in
the Progress Channel. -/
def outstanding (s : TaskManager) (i : Nat) : Nat :=
  s.spawned.count i + s.channel.countP fun q => decide (q.1 = i)

/-- The inductive invariant of the task system: task ids are unique and
below the fresh counter, as are the ids in flight; a `Pending` or terminal
task has no outstanding report, and an `InProgress` task has at most one. -/
structure Inv (s : TaskManager) : Prop where
  nodupIds : (s.tasks.map (·.id)).Nodup
  idsLt : ∀ t ∈ s.tasks, t.id < s.nextId
  spawnedLt : ∀ i ∈ s.spawned, i < s.nextId
  channelLt : ∀ q ∈ s.channel, q.1 < s.nextId
  pendingZero : ∀ t ∈ s.tasks, t.status = TaskStatus.pending → outstanding s t.id = 0
  terminalZero : ∀ t ∈ s.tasks, t.status.isTerminal = true → outstanding s t.id = 0
  activeLe : ∀ t ∈ s.tasks, t.status ≠ TaskStatus.pending →
      t.status.isTerminal = false → outstanding s t.id ≤ 1

theorem count_eq_zero_of_bound (l : List Nat) (n : Nat) (h : ∀ j ∈ l, j < n) :
    l.count n = 0 :=
  List.count_eq_zero.mpr fun hmem => absurd (h n hmem) (lt_irrefl n)

theorem countP_fst_eq_zero_of_bound (l : List (Nat × ProgressEvent)) (n : Nat)
    (h : ∀ q ∈ l, q.1 < n) : (l.countP fun q => decide (q.1 = n)) = 0 :=
  List.countP_eq_zero.mpr fun q hq => by
    have := h q hq
    simp
    omega

theorem outstanding_fresh (s : TaskManager) (hsp : ∀ i ∈ s.spawned, i < s.nextId)
    (hch : ∀ q ∈ s.channel, q.1 < s.nextId) : outstanding s s.nextId = 0 := by
  rw [outstanding, count_eq_zero_of_bound s.spawned s.nextId hsp,
    countP_fst_eq_zero_of_bound s.channel s.nextId hch]

theorem count_pendingIds_of_pending (ts : List Task) (t : Task)
    (hnodup : (ts.map (·.id)).Nodup) (ht : t ∈ ts)
    (hp : t.status = TaskStatus.pending) :
    ((ts.filter fun u => decide (u.status = TaskStatus.pending)).map (·.id)).count t.id = 1 := by
  have hsub : ((ts.filter fun u => decide (u.status = TaskStatus.pending)).map (·.id)).Sublist
      (ts.map (·.id)) := List.Sublist.map _ (List.filter_sublist ts)
  refine List.count_eq_one_of_mem (hsub.nodup hnodup) ?_
  refine List.mem_map_of_mem (fun u : Task => u.id) ?_
  rw [List.mem_filter]
  exact ⟨ht, decide_eq_true hp⟩

theorem count_pendingIds_of_not_pending (ts : List Task) (t : Task)
    (hnodup : (ts.map (·.id)).Nodup) (ht : t ∈ ts)
    (hp : t.status ≠ TaskStatus.pending) :
    ((ts.filter fun u => decide (u.status = TaskStatus.pending)).map (·.id)).count t.id = 0 := by
  refine List.count_eq_zero.mpr ?_
  intro hmem
  obtain ⟨u, hu, hui⟩ := List.mem_map.mp hmem
  have hu' := List.mem_filter.mp hu
  have : u = t := List.inj_on_of_nodup_map hnodup hu'.1 ht hui
  exact hp (by rw [← this]; exact of_decide_eq_true hu'.2)

theorem applyEvent_map_id (ts : List Task) (i : Nat) (ev : ProgressEvent) :
    (applyEvent ts i ev).1.map (·.id) = ts.map (·.id) := by
  induction ts with
  | nil => rfl
  | cons t ts ih =>
    by_cases h : t.id = i
    · simp [applyEvent, h]
    · simp [applyEvent, h, ih]

theorem applyEvent_mem (ts : List Task) (i : Nat) (ev : ProgressEvent) (u : Task)
    (hu : u ∈ (applyEvent ts i ev).1) :
    u ∈ ts ∨ ∃ t ∈ ts, t.id = i ∧ u = { t with status := eventStatus ev } := by
  induction ts with
  | nil => simp [applyEvent] at hu
  | cons t ts ih =>
    by_cases h : t.id = i
    · rw [applyEvent, if_pos h] at hu
      rcases List.mem_cons.mp hu with rfl | hmem
      · exact Or.inr ⟨t, List.mem_cons_self t ts, h, rfl⟩
      · exact Or.inl (List.mem_cons_of_mem t hmem)
    · rw [applyEvent, if_neg h] at hu
      rcases List.mem_cons.mp hu with rfl | hmem
      · exact Or.inl (List.mem_cons_self u ts)
      · rcases ih hmem with h1 | ⟨v, hv, hvi, hvu⟩
        · exact Or.inl (List.mem_cons_of_mem t h1)
        · exact Or.inr ⟨v, List.mem_cons_of_mem t hv, hvi, hvu⟩

theorem applyEvent_find?_ne (ts : List Task) (j i : Nat) (ev : ProgressEvent)
    (hne : j ≠ i) :
    ((applyEvent ts j ev).1.find? fun t => decide (t.id = i))
      = ts.find? fun t => decide (t.id = i) := by
  induction ts with
  | nil => rfl
  | cons t ts ih =>
    by_cases h : t.id = j
    · rw [applyEvent, if_pos h]
      have hti : ¬ t.id = i := by omega
      rw [List.find?_cons_of_neg _ (by simp [hti]), List.find?_cons_of_neg _ (by simp [hti])]
    · rw [applyEvent, if_neg h]
      by_cases hti : t.id = i
      · rw [List.find?_cons_of_pos _ (by simp [hti]), List.find?_cons_of_pos _ (by simp [hti])]
      · rw [List.find?_cons_of_neg _ (by simp [hti]), List.find?_cons_of_neg _ (by simp [hti]), ih]

theorem eventStatus_ne_pending (ev : ProgressEvent) :
    eventStatus ev ≠ TaskStatus.pending := by
  cases ev <;> simp [eventStatus]

theorem Inv.init : Inv TaskManager.new := by
  constructor <;> simp [TaskManager.new, outstanding]

theorem outstanding_append_spawned (s : TaskManager) (l : List Nat) (i : Nat) :
    outstanding { s with spawned := s.spawned ++ l } i = outstanding s i + l.count i := by
  show (s.spawned ++ l).count i + s.channel.countP (fun q => decide (q.1 = i))
    = (s.spawned.count i + s.channel.countP (fun q => decide (q.1 = i))) + l.count i
  rw [List.count_append]
  omega

theorem outstanding_emit_eq (s : TaskManager) (i j : Nat) (ev : ProgressEvent)
    (hi : i ∈ s.spawned) :
    outstanding { s with spawned := s.spawned.erase i, channel := s.channel ++ [(i, ev)] } j
      = outstanding s j := by
  show (s.spawned.erase i).count j + (s.channel ++ [(i, ev)]).countP (fun q => decide (q.1 = j))
    = s.spawned.count j + s.channel.countP (fun q => decide (q.1 = j))
  rw [List.countP_append]
  by_cases h : j = i
  · subst h
    rw [List.count_erase_self]
    have hpos : s.spawned.count j ≠ 0 := by
      rw [Ne, List.count_eq_zero]
      exact fun hc => hc hi
    have hone : ([(j, ev)].countP fun q => decide (q.1 = j)) = 1 := by simp
    omega
  · rw [List.count_erase_of_ne h]
    have hzero : ([(i, ev)].countP fun q => decide (q.1 = j)) = 0 := by
      simp
      omega
    omega

theorem outstanding_crash_le (s : TaskManager) (i j : Nat) :
    outstanding { s with spawned := s.spawned.erase i } j ≤ outstanding s j := by
  show (s.spawned.erase i).count j + s.channel.countP (fun q => decide (q.1 = j))
    ≤ s.spawned.count j + s.channel.countP (fun q => decide (q.1 = j))
  have hle : (s.spawned.erase i).count j ≤ s.spawned.count j := by
    by_cases h : j = i
    · subst h; rw [List.count_erase_self]; omega
    · rw [List.count_erase_of_ne h]
  omega

theorem outstanding_pop (s : TaskManager) (j i : Nat) (ev : ProgressEvent)
    (rest : List (Nat × ProgressEvent)) (hch : s.channel = (j, ev) :: rest) (X : List Task) :
    outstanding s i
      = outstanding { s with tasks := X, channel := rest } i + (if j = i then 1 else 0) := by
  show s.spawned.count i + s.channel.countP (fun q => decide (q.1 = i))
    = (s.spawned.count i + rest.countP (fun q => decide (q.1 = i))) + (if j = i then 1 else 0)
  rw [hch, List.countP_cons]
  by_cases h : j = i <;> simp [h] <;> omega

theorem inv_add (s : TaskManager) (kind : TaskKind) (description : String)
    (h : Inv s) : Inv (addTask s kind description) := by
  obtain ⟨hn, hid, hsp, hch, hpz, htz, hal⟩ := h
  have hout : ∀ i, outstanding (addTask s kind description) i = outstanding s i :=
    fun _ => rfl
  have htasks : (addTask s kind description).tasks
      = s.tasks ++ [Task.new s.nextId kind description] := rfl
  have hnext : (addTask s kind description).nextId = s.nextId + 1 := rfl
  constructor
  · rw [htasks, List.map_append, List.nodup_append]
    refine ⟨hn, by simp, ?_⟩
    intro a ha hb
    obtain ⟨t, ht, rfl⟩ := List.mem_map.mp ha
    have hlt := hid t ht
    simp [Task.new] at hb
    omega
  · intro t ht
    rw [htasks] at ht
    rw [hnext]
    rcases List.mem_append.mp ht with h1 | h1
    · exact Nat.lt_succ_of_lt (hid t h1)
    · simp at h1
      subst h1
      simp [Task.new]
  · intro i hi
    rw [hnext]
    exact Nat.lt_succ_of_lt (hsp i hi)
  · intro q hq
    rw [hnext]
    exact Nat.lt_succ_of_lt (hch q hq)
  · intro t ht hp
    rw [htasks] at ht
    rw [hout]
    rcases List.mem_append.mp ht with h1 | h1
    · exact hpz t h1 hp
    · simp at h1
      subst h1
      exact outstanding_fresh s hsp hch
  · intro t ht hterm
    rw [htasks] at ht
    rw [hout]
    rcases List.mem_append.mp ht with h1 | h1
    · exact htz t h1 hterm
    · simp at h1
      subst h1
      simp [Task.new, TaskStatus.isTerminal] at hterm
  · intro t ht hp hterm
    rw [htasks] at ht
    rw [hout]
    rcases List.mem_append.mp ht with h1 | h1
    · exact hal t h1 hp hterm
    · simp at h1
      subst h1
      simp [Task.new] at hp

theorem inv_process (s : TaskManager) (h : Inv s) : Inv (processPendingTasks s) := by
  obtain ⟨hn, hid, hsp, hch, hpz, htz, hal⟩ := h
  have htasks : (processPendingTasks s).tasks = s.tasks.map markPending := rfl
  have hnext : (processPendingTasks s).nextId = s.nextId := rfl
  have hout : ∀ i, outstanding (processPendingTasks s) i
      = outstanding s i
        + ((s.tasks.filter fun u => decide (u.status = TaskStatus.pending)).map (·.id)).count i :=
    fun i => outstanding_append_spawned s _ i
  constructor
  · rw [htasks, map_id_map_markPending]
    exact hn
  · intro t ht
    rw [htasks] at ht
    obtain ⟨u, hu, rfl⟩ := List.mem_map.mp ht
    rw [hnext, markPending_id]
    exact hid u hu
  · intro i hi
    rw [hnext]
    show i < s.nextId
    rcases List.mem_append.mp hi with h1 | h1
    · exact hsp i h1
    · obtain ⟨u, hu, rfl⟩ := List.mem_map.mp h1
      exact hid u (List.mem_filter.mp hu).1
  · intro q hq
    rw [hnext]
    exact hch q hq
  · intro t ht hp
    rw [htasks] at ht
    obtain ⟨u, hu, rfl⟩ := List.mem_map.mp ht
    exact absurd hp (markPending_not_pending u)
  · intro t ht hterm
    rw [htasks] at ht
    obtain ⟨u, hu, rfl⟩ := List.mem_map.mp ht
    have hunp : u.status ≠ TaskStatus.pending := by
      intro hp
      rw [markPending, if_pos hp] at hterm
      simp [TaskStatus.isTerminal] at hterm
    rw [markPending_of_not_pending u hunp] at hterm ⊢
    rw [hout, htz u hu hterm, count_pendingIds_of_not_pending s.tasks u hn hu hunp]
  · intro t ht hp hterm
    rw [htasks] at ht
    obtain ⟨u, hu, rfl⟩ := List.mem_map.mp ht
    rw [hout, markPending_id]
    by_cases hup : u.status = TaskStatus.pending
    · rw [hpz u hu hup, count_pendingIds_of_pending s.tasks u hn hu hup]
    · rw [markPending_of_not_pending u hup] at hp hterm
      have := hal u hu hp hterm
      rw [count_pendingIds_of_not_pending s.tasks u hn hu hup]
      omega

theorem inv_emit (s : TaskManager) (i : Nat) (ev : ProgressEvent) (hi : i ∈ s.spawned)
    (h : Inv s) :
    Inv { s with spawned := s.spawned.erase i, channel := s.channel ++ [(i, ev)] } := by
  obtain ⟨hn, hid, hsp, hch, hpz, htz, hal⟩ := h
  have hout := fun j => outstanding_emit_eq s i j ev hi
  constructor
  · exact hn
  · intro t ht
    exact hid t ht
  · intro j hj
    exact hsp j (List.mem_of_mem_erase hj)
  · intro q hq
    show q.1 < s.nextId
    rcases List.mem_append.mp hq with h1 | h1
    · exact hch q h1
    · simp at h1
      subst h1
      exact hsp i hi
  · intro t ht hp
    rw [hout]
    exact hpz t ht hp
  · intro t ht hterm
    rw [hout]
    exact htz t ht hterm
  · intro t ht hp hterm
    rw [hout]
    exact hal t ht hp hterm

theorem inv_crash (s : TaskManager) (i : Nat) (h : Inv s) :
    Inv { s with spawned := s.spawned.erase i } := by
  obtain ⟨hn, hid, hsp, hch, hpz, htz, hal⟩ := h
  have hout := fun j => outstanding_crash_le s i j
  constructor
  · exact hn
  · intro t ht
    exact hid t ht
  · intro j hj
    exact hsp j (List.mem_of_mem_erase hj)
  · intro q hq
    exact hch q hq
  · intro t ht hp
    have h0 := hpz t ht hp
    have := hout t.id
    omega
  · intro t ht hterm
    have h0 := htz t ht hterm
    have := hout t.id
    omega
  · intro t ht hp hterm
    have h1 := hal t ht hp hterm
    have := hout t.id
    omega

theorem inv_wait (s : TaskManager) (hne : s.channel ≠ []) (h : Inv s) :
    Inv (waitForEvent s).1 := by
  obtain ⟨hn, hid, hsp, hch, hpz, htz, hal⟩ := h
  cases hchm : s.channel with
  | nil => exact absurd hchm hne
  | cons q rest =>
    obtain ⟨j, ev⟩ := q
    have hwf : (waitForEvent s).1
        = { s with tasks := (applyEvent s.tasks j ev).1, channel := rest } := by
      simp [waitForEvent, hchm]
    rw [hwf]
    have hpop := fun i =>
      outstanding_pop s j i ev rest hchm (applyEvent s.tasks j ev).1
    have houtle : ∀ i,
        outstanding { s with tasks := (applyEvent s.tasks j ev).1, channel := rest } i
          ≤ outstanding s i := by
      intro i
      have := hpop i
      omega
    have hpopj := hpop j
    rw [if_pos rfl] at hpopj
    constructor
    · show ((applyEvent s.tasks j ev).1.map (·.id)).Nodup
      rw [applyEvent_map_id]
      exact hn
    · intro t ht
      show t.id < s.nextId
      rcases applyEvent_mem s.tasks j ev t ht with h1 | ⟨u, hu, _, rfl⟩
      · exact hid t h1
      · exact hid u hu
    · intro p hp2
      exact hsp p hp2
    · intro q hq
      exact hch q (hchm ▸ List.mem_cons_of_mem _ hq)
    · intro t ht hpend
      rcases applyEvent_mem s.tasks j ev t ht with h1 | ⟨u, hu, _, rfl⟩
      · have h0 := hpz t h1 hpend
        have := houtle t.id
        omega
      · exact absurd hpend (eventStatus_ne_pending ev)
    · intro t ht hterm
      rcases applyEvent_mem s.tasks j ev t ht with h1 | ⟨u, hu, hui, rfl⟩
      · have h0 := htz t h1 hterm
        have := houtle t.id
        omega
      · have hup : u.status ≠ TaskStatus.pending := by
          intro hp
          have h0 := hpz u hu hp
          rw [hui] at h0
          omega
        have hut : u.status.isTerminal = false := by
          cases hcase : u.status.isTerminal
          · rfl
          · exfalso
            have h0 := htz u hu hcase
            rw [hui] at h0
            omega
        have hle := hal u hu hup hut
        rw [hui] at hle
        show outstanding { s with tasks := (applyEvent s.tasks j ev).1, channel := rest } u.id = 0
        rw [hui]
        omega
    · intro t ht hp hterm
      rcases applyEvent_mem s.tasks j ev t ht with h1 | ⟨u, hu, hui, rfl⟩
      · have h2 := hal t h1 hp hterm
        have := houtle t.id
        omega
      · show outstanding { s with tasks := (applyEvent s.tasks j ev).1, channel := rest } u.id ≤ 1
        have := houtle u.id
        have h2 : outstanding s u.id ≤ 1 := by
          have hup : u.status ≠ TaskStatus.pending := by
            intro hpp
            have h0 := hpz u hu hpp
            rw [hui] at h0
            omega
          have hut : u.status.isTerminal = false := by
            cases hcase : u.status.isTerminal
            · rfl
            · exfalso
              have h0 := htz u hu hcase
              rw [hui] at h0
              omega
          exact hal u hu hup hut
        omega

theorem inv_step (s s' : TaskManager) (h : Inv s) (hst : Step s s') : Inv s' := by
  cases hst with
  | add kind description => exact inv_add s kind description h
  | process => exact inv_process s h
  | emit i ev hi hev => exact inv_emit s i ev hi h
  | crash i hi => exact inv_crash s i h
  | wait hne => exact inv_wait s hne h

theorem inv_reachable (s : TaskManager) (h : Reachable s) : Inv s := by
  induction h with
  | base => exact Inv.init
  | step _ hst ih => exact inv_step _ _ ih hst

/-- C9: in every reachable execution of the manager-plus-executors step
relation, a task that has reached a terminal status (`Completed` or
`Failed`) keeps that exact status across every further step; in particular
no task ever regresses from a terminal state back to `InProgress`. -/
theorem terminal_status_frozen (s s' : TaskManager) (hr : Reachable s) (hst : Step s s')
    (i : Nat) (st : TaskStatus) (hso : statusOf s i = some st)
    (hterm : st.isTerminal = true) : statusOf s' i = some st := by
  have hinv := inv_reachable s hr
  obtain ⟨t, hfind, hts⟩ := Option.map_eq_some'.mp hso
  have htmem : t ∈ s.tasks := List.mem_of_find?_eq_some hfind
  have hpt := List.find?_some hfind
  have htid : t.id = i := of_decide_eq_true hpt
  cases hst with
  | add kind description =>
    show (((s.tasks ++ [Task.new s.nextId kind description]).find?
        fun u => decide (u.id = i)).map (·.status)) = some st
    rw [List.find?_append, hfind]
    simp [hts]
  | process =>
    show (((s.tasks.map markPending).find? fun u => decide (u.id = i)).map (·.status)) = some st
    rw [find?_id_map_markPending, hfind]
    have hnp : t.status ≠ TaskStatus.pending := by
      intro hp
      rw [hp] at hts
      rw [← hts] at hterm
      simp [TaskStatus.isTerminal] at hterm
    simp [markPending_of_not_pending t hnp, hts]
  | emit j ev hj hev =>
    exact hso
  | crash j hj =>
    exact hso
  | wait hne =>
    cases hchm : s.channel with
    | nil => exact absurd hchm hne
    | cons q rest =>
      obtain ⟨j, ev⟩ := q
      have hwf : (waitForEvent s).1
          = { s with tasks := (applyEvent s.tasks j ev).1, channel := rest } := by
        simp [waitForEvent, hchm]
      rw [hwf]
      by_cases hji : j = i
      · exfalso
        have h0 := hinv.terminalZero t htmem (by rw [hts]; exact hterm)
        rw [htid] at h0
        have hpop := outstanding_pop s j i ev rest hchm (applyEvent s.tasks j ev).1
        rw [if_pos hji] at hpop
        omega
      · show (((applyEvent s.tasks j ev).1.find? fun u => decide (u.id = i)).map (·.status))
          = some st
        rw [applyEvent_find?_ne s.tasks j i ev hji, hfind]
        simp [hts]

theorem terminal_status_frozen_witness :
    statusOf
      (addTask
        (waitForEvent
          { processPendingTasks (addTask TaskManager.new (TaskKind.createFile ["f"]) "create f") with
            spawned := (processPendingTasks
              (addTask TaskManager.new (TaskKind.createFile ["f"]) "create f")).spawned.erase 0,
            channel := (processPendingTasks
              (addTask TaskManager.new (TaskKind.createFile ["f"]) "create f")).channel
                ++ [(0, ProgressEvent.completed)] }).1
        (TaskKind.delete ["g"]) "del g") 0
      = some TaskStatus.completed := by
  refine terminal_status_frozen _ _
    (Reachable.step
      (Reachable.step
        (Reachable.step
          (Reachable.step Reachable.base
            (Step.add TaskManager.new (TaskKind.createFile ["f"]) "create f"))
          (Step.process (addTask TaskManager.new (TaskKind.createFile ["f"]) "create f")))
        (Step.emit
          (processPendingTasks (addTask TaskManager.new (TaskKind.createFile ["f"]) "create f"))
          0 ProgressEvent.completed (by decide) rfl))
      (Step.wait _ (by decide)))
    (Step.add _ (TaskKind.delete ["g"]) "del g") 0 TaskStatus.completed ?_ rfl
  decide

end Corvus
